import Mathlib

/-!
# Verification of the all-in-one-clipboard storage core

Shallow embedding of the storage-side logic of the `all-in-one-clipboard`
GNOME extension, together with proofs of the specified properties.

Embedded components:
* `RecentItemsManager` (`extension/utilities/utilityRecents.js`): a bounded,
  deduplicated, persisted list of recently used picker items.
* `Debouncer` (`extension/utilities/utilityDebouncer.js`): a timer-based
  debounce wrapper, modelled as a state machine over abstract events.
* `GifCacheManager` (`extension/features/GIF/logic/gifCacheManager.js`):
  method dispatch on the debouncer instance is modelled explicitly, because
  JavaScript property lookup of a missing method yields a TypeError.
* `manageCacheSize` (`extension/utilities/utilityCacheManager.js`): size-based
  cache eviction in access-time order.
* The clipboard engine (History/Pinned dedup), modelled from the design
  document because its source file is not part of the provided sources.
-/

namespace AIOClipboard

/-! ## JavaScript value model for recents items

A recents item in the JS source is an arbitrary object whose `value` property
is checked with `typeof item.value !== 'string'`.  We model a `value` as
either a genuine string or a non-string JS value. -/

/-- A JavaScript value stored in an item's `value` property: either a string
or some non-string value (number, object, `undefined`, ...). -/
inductive JSValue where
  | str (s : String)
  | other
deriving DecidableEq, Repr

/-- A recents item: the `value` property plus the rest of the object's fields,
abstracted as an opaque payload (the code never inspects other fields). -/
structure JSItem where
  value : JSValue
  payload : Nat
deriving DecidableEq, Repr

/-- `r.value === item.value` where `item.value` is the string `v`: JS strict
equality between a string and a non-string is `false`. -/
def valueMatches (v : String) (r : JSItem) : Bool :=
  match r.value with
  | .str t => t == v
  | .other => false

/-! ## RecentItemsManager state (`utilityRecents.js`) -/

/-- The mutable fields of a `RecentItemsManager` that the list operations
read or write.  `maxItems` mirrors `this._maxItems` (a JS number read from
GSettings via `get_int`, hence an integer); `settingsAlive` is whether
`this._settings` is non-null (it is nulled by `destroy()`). -/
structure RecentsState where
  recents : List JSItem
  maxItems : Int
  isLoaded : Bool
  settingsAlive : Bool
deriving DecidableEq, Repr

/-- `DEFAULT_MAX_RECENTS_FALLBACK` from `utilityRecents.js`. -/
def DEFAULT_MAX_RECENTS_FALLBACK : Nat := 45

/-- The effective bound used by `_pruneRecents`: `this._maxItems` when it is a
number `>= 0`, else the fallback 45.  (`get_int` always yields a number, so
the `typeof` test reduces to the sign test.) -/
def effectiveMax (s : RecentsState) : Nat :=
  if 0 ≤ s.maxItems then s.maxItems.toNat else DEFAULT_MAX_RECENTS_FALLBACK

/-- `_pruneRecents()`: guard on `this._settings`, then truncate the list in
place when it exceeds the bound (`this._recents.length = max`). -/
def pruneRecents (s : RecentsState) : RecentsState :=
  if !s.settingsAlive then s
  else if s.recents.length > effectiveMax s then
    { s with recents := s.recents.take (effectiveMax s) }
  else s

/-- Observable side effects of one `RecentItemsManager` call: whether a
warning was logged, whether `_save()` was initiated, and whether the
`recents-changed` signal was emitted. -/
structure Effects where
  warned : Bool
  saved : Bool
  emitted : Bool
deriving DecidableEq, Repr

/-- No side effect. -/
def noEffects : Effects := ⟨false, false, false⟩

/-- `String.prototype.trim()`: strip leading and trailing whitespace. -/
def jsTrim (s : String) : String :=
  ⟨((s.data.dropWhile Char.isWhitespace).reverse.dropWhile Char.isWhitespace).reverse⟩

/-- The validity test at the top of `addItem`:
`!item || typeof item.value !== 'string' || item.value.trim() === ''`
(negated).  `none` models a null/undefined argument. -/
def isValidItem : Option JSItem → Bool
  | none => false
  | some it =>
    match it.value with
    | .str s => !(jsTrim s == "")
    | .other => false

/-- `addItem(item)` from `utilityRecents.js`:
guard on `this._settings`; reject invalid items with a warning; otherwise
remove the first entry with the same `value` (`findIndex` + `splice`),
unshift a shallow copy of the item, prune, save and emit. -/
def addItem (s : RecentsState) (item : Option JSItem) : RecentsState × Effects :=
  if !s.settingsAlive then (s, noEffects)
  else if !(isValidItem item) then (s, { noEffects with warned := true })
  else
    match item with
    | none => (s, { noEffects with warned := true })
    | some it =>
      match it.value with
      | .other => (s, { noEffects with warned := true })
      | .str v =>
        let afterRemove := s.recents.eraseP (valueMatches v)
        let s' := pruneRecents { s with recents := it :: afterRemove }
        (s', { warned := false, saved := true, emitted := true })

/-- `getRecents()`: `return [...this._recents]` — the pure contents of the
returned copy (aliasing is treated separately in the heap model below). -/
def getRecents (s : RecentsState) : List JSItem :=
  s.recents

/-- The `changed::<maxItemsSettingKey>` handler installed by the constructor:
guard on `this._settings`; store the new setting value; if loading has
completed, prune and save.  The returned Bool records whether `_save()` was
initiated. -/
def onMaxItemsChanged (s : RecentsState) (newMax : Int) : RecentsState × Bool :=
  if !s.settingsAlive then (s, false)
  else
    let s₁ : RecentsState := { s with maxItems := newMax }
    if s₁.isLoaded then (pruneRecents s₁, true) else (s₁, false)

/-! ## `_load()` (`utilityRecents.js`)

`_load` reads the cache file asynchronously and rebuilds `this._recents`.
The file read and `JSON.parse` are platform calls; we model their possible
outcomes as data: the read either throws (NOT_FOUND or another error) or
returns bytes (possibly `null`), and the decoded string either is blank after
trimming, fails to parse, parses to a JSON array, or parses to a non-array
value.  The body that can throw is written in the `Except` monad and the
`try`/`catch` of the source is `tryCatch`, so "no error propagates" is a
statement about the embedded function, not an artifact of totality. -/

/-- Errors that can reach the `catch` in `_load`: a `Gio.IOErrorEnum.NOT_FOUND`
`GLib.Error`, or any other error (other I/O errors, `JSON.parse` failures). -/
inductive LoadError where
  | notFound
  | other
deriving DecidableEq, Repr

/-- What the decoded file contents can amount to. -/
inductive FileContent where
  /-- `jsonString.trim()` is empty: the code skips `JSON.parse` and uses `[]`. -/
  | blank
  /-- `JSON.parse` throws. -/
  | malformed
  /-- Parses to a JSON array of items. -/
  | jsonArr (items : List JSItem)
  /-- Parses to a JSON value that is not an array. -/
  | jsonOther
deriving DecidableEq, Repr

/-- Outcome of the wrapped `load_contents_async` promise: it rejects with an
error, or resolves with `contents` (`ok` true) or `null` (`ok` false). -/
inductive ReadEvent where
  | throwNotFound
  | throwOther
  | ret (bytes : Option FileContent)
deriving DecidableEq, Repr

/-- The awaited file read, as an `Except` computation. -/
def readFileResult : ReadEvent → Except LoadError (Option FileContent)
  | .throwNotFound => .error .notFound
  | .throwOther => .error .other
  | .ret b => .ok b

/-- The `try` block of `_load`: await the read, decode, parse, and install the
list (pruning when an array was loaded).  The returned Bool is whether a
warning was logged inside the `try` block (the non-array case). -/
def loadBody (s : RecentsState) (e : ReadEvent) :
    Except LoadError (RecentsState × Bool) :=
  match readFileResult e with
  | .error err => .error err
  | .ok none => .ok ({ s with recents := [] }, false)
  | .ok (some .blank) => .ok (pruneRecents { s with recents := [] }, false)
  | .ok (some .malformed) => .error .other
  | .ok (some (.jsonArr items)) => .ok (pruneRecents { s with recents := items }, false)
  | .ok (some .jsonOther) => .ok ({ s with recents := [] }, true)

/-- `_load()`: the guard on `this._settings`, then the `try`/`catch`.  The
`catch` turns NOT_FOUND into a silent empty list and every other error into an
empty list plus a warning.  The result type is `Except` so that propagation of
an error would be visible as an `.error` value. -/
def loadRecents (s : RecentsState) (e : ReadEvent) :
    Except LoadError (RecentsState × Bool) :=
  if !s.settingsAlive then .ok (s, false)
  else
    match loadBody s e with
    | .ok r => .ok r
    | .error .notFound => .ok ({ s with recents := [] }, false)
    | .error .other => .ok ({ s with recents := [] }, true)

/-! ## Array aliasing model for `getRecents()`

`getRecents()` returns `[...this._recents]`.  The spread expression allocates
a fresh array object; to state that the caller cannot mutate the manager's
backing array through the returned value we model JS array references
explicitly: a heap maps reference ids to array contents, the manager's
`this._recents` lives at one reference, and the spread allocates a new one. -/

/-- A heap of JS arrays: cell `r` holds the contents of the array referred to
by reference id `r`. -/
structure ArrayHeap where
  cells : List (List JSItem)
deriving Repr

/-- Dereference an array reference. -/
def hget (h : ArrayHeap) (r : Nat) : List JSItem :=
  h.cells.getD r []

/-- Mutate the array behind a reference (what a caller's in-place mutation of
the returned value does). -/
def hset (h : ArrayHeap) (r : Nat) (v : List JSItem) : ArrayHeap :=
  ⟨h.cells.set r v⟩

/-- Allocate a fresh array with the given contents; returns the new heap and
the fresh reference. -/
def halloc (h : ArrayHeap) (v : List JSItem) : ArrayHeap × Nat :=
  (⟨h.cells ++ [v]⟩, h.cells.length)

/-- `getRecents()` in the heap model: `[...this._recents]` reads the backing
array at `mgr` and allocates a fresh array with the same contents. -/
def getRecentsRef (h : ArrayHeap) (mgr : Nat) : ArrayHeap × Nat :=
  halloc h (hget h mgr)

/-! ## `Debouncer` (`utilityDebouncer.js`)

State machine over the events the class reacts to.  `fire` runs the body of
the `GLib.timeout_add` callback; it is allowed at any time (even for a stale
callback) so that the `isDestroyed` guard inside the callback is what the
proof relies on, exactly as in the source. -/

/-- The fields of a `Debouncer` the control flow reads: `_isDestroyed`,
whether `_timeoutId > 0` (a timeout is pending), and whether `_func` is still
set (it is nulled by `destroy()`). -/
structure DebouncerState where
  isDestroyed : Bool
  pending : Bool
  funcAlive : Bool
deriving DecidableEq, Repr

/-- Events: `trigger(...)`, `cancel()`, `destroy()`, and the timeout callback
firing. -/
inductive DebEvent where
  | trigger
  | cancel
  | destroy
  | fire
deriving DecidableEq, Repr

/-- One step of the debouncer.  The Bool is whether `this._func` was invoked
during the step.
* `trigger`: returns early when destroyed; otherwise removes any pending
  source and schedules a new one (never invokes the function itself).
* `cancel`: removes a pending source.
* `destroy`: sets `_isDestroyed`, removes a pending source, nulls `_func`.
* `fire`: the timeout callback body — if destroyed, return `SOURCE_REMOVE`
  without invoking; otherwise invoke the function and clear `_timeoutId`. -/
def debStep : DebouncerState → DebEvent → DebouncerState × Bool
  | d, .trigger =>
    if d.isDestroyed then (d, false)
    else ({ d with pending := true }, false)
  | d, .cancel => ({ d with pending := false }, false)
  | _, .destroy =>
    ({ isDestroyed := true, pending := false, funcAlive := false }, false)
  | d, .fire =>
    if d.isDestroyed then (d, false)
    else ({ d with pending := false }, true)

/-- Run a sequence of events, counting function invocations. -/
def debRun : DebouncerState → List DebEvent → DebouncerState × Nat
  | d, [] => (d, 0)
  | d, e :: es =>
    let (d', inv) := debStep d e
    let (d'', n) := debRun d' es
    (d'', (if inv then 1 else 0) + n)

/-! ## `GifCacheManager` method dispatch (`gifCacheManager.js`)

`triggerDebouncedCleanup()` executes `this._debouncedCleanup.call()`.
JavaScript resolves `call` by property lookup on the `Debouncer` instance and
its prototype chain; the `Debouncer` class defines only `trigger`, `cancel`
and `destroy` (plus the non-invocable `constructor`), so the lookup yields
`undefined` and the call throws a `TypeError`.  We embed this dispatch. -/

/-- A thrown JS error. -/
inductive JsError where
  | typeError (msg : String)
deriving DecidableEq, Repr

/-- Method lookup on a `Debouncer` instance, returning the method's behavior
when the instance holds a callable function under that name.  The prototype
defines `trigger`, `cancel` and `destroy`; `constructor` exists but invoking a
class constructor without `new` also throws, and every other name resolves to
`undefined`. -/
def debouncerLookup (name : String) : Option (DebouncerState → DebouncerState × Bool) :=
  if name == "trigger" then some (fun d => debStep d .trigger)
  else if name == "cancel" then some (fun d => debStep d .cancel)
  else if name == "destroy" then some (fun d => debStep d .destroy)
  else none

/-- `obj.<name>()` on a `Debouncer` instance: dispatch through the prototype
chain, throwing a `TypeError` when the property is not a callable method. -/
def invokeDebouncerMethod (d : DebouncerState) (name : String) :
    Except JsError (DebouncerState × Bool) :=
  match debouncerLookup name with
  | some f => .ok (f d)
  | none => .error (.typeError (name ++ " is not a function"))

/-- `GifCacheManager.triggerDebouncedCleanup()`:
`this._debouncedCleanup.call()`. -/
def triggerDebouncedCleanup (d : DebouncerState) :
    Except JsError (DebouncerState × Bool) :=
  invokeDebouncerMethod d "call"

/-- The debouncer held by a freshly constructed `GifCacheManager`
(`new Debouncer(() => this._runCleanup(), 5000)`). -/
def gifManagerDebouncer : DebouncerState :=
  { isDestroyed := false, pending := false, funcAlive := true }

/-! ## `manageCacheSize` (`utilityCacheManager.js`)

The function enumerates the cache directory, sums the file sizes, and when
the total exceeds `limitInMB * 1024 * 1024` deletes files in ascending
access-time order until the running total is within the limit.  A failed
deletion is logged and the loop continues; `totalSize -= file.size` runs
whether or not the deletion succeeded.  Deletion outcomes are modelled by an
oracle `delOk`; the pair returned is (files whose deletion was attempted,
files actually deleted). -/

/-- One directory entry as collected by the enumeration loop. -/
structure CacheFile where
  path : String
  accessTime : Nat
  size : Nat
deriving DecidableEq, Repr

/-- The sort comparator `(a, b) => a.accessTime - b.accessTime` (ascending
access time; `Array.prototype.sort` is stable). -/
def cacheLE (a b : CacheFile) : Bool :=
  a.accessTime ≤ b.accessTime

/-- `files.sort(...)`: stable sort by ascending access time. -/
def sortByAccess (files : List CacheFile) : List CacheFile :=
  files.mergeSort cacheLE

/-- The `totalSize` accumulated by the enumeration loop. -/
def totalSizeOf (files : List CacheFile) : Int :=
  ((files.map (fun f => f.size)).sum : Nat)

/-- The deletion loop: stop when `totalSize <= limitInBytes`, otherwise
attempt to delete the next file (a failure only logs) and subtract its size
from the running total in either case. -/
def deleteLoop (delOk : String → Bool) (limitInBytes : Int) :
    Int → List CacheFile → List CacheFile × List CacheFile
  | _, [] => ([], [])
  | total, f :: rest =>
    if total ≤ limitInBytes then ([], [])
    else
      let (att, succ) := deleteLoop delOk limitInBytes (total - (f.size : Int)) rest
      (f :: att, if delOk f.path then f :: succ else succ)

/-- `manageCacheSize(cacheDirPath, limitInMB)`: no-op when the limit is
non-positive, the directory is missing, enumeration fails, or the total size
is within the limit; otherwise run the deletion loop over the files sorted by
access time. -/
def manageCacheSize (dirExists : Bool) (enumOk : Bool) (files : List CacheFile)
    (limitInMB : Int) (delOk : String → Bool) : List CacheFile × List CacheFile :=
  if limitInMB ≤ 0 then ([], [])
  else if !dirExists then ([], [])
  else if !enumOk then ([], [])
  else
    let limitInBytes := limitInMB * 1024 * 1024
    let total := totalSizeOf files
    if total ≤ limitInBytes then ([], [])
    else deleteLoop delOk limitInBytes total (sortByAccess files)

/-! ## Clipboard engine (History/Pinned dedup)

The engine's source file (`features/Clipboard/logic/clipboardManager.js`) is
not among the provided sources — only its callers are — so the engine is
modelled from the design document: ingestion classifies content by hash,
moves a History hit to the front, transfers a Pinned hit to History only when
"unpin-on-paste" is enabled, and otherwise inserts a fresh item and prunes;
pin/unpin/delete/promote move or remove single items. -/

/-- Modelled from the spec: a ClipItem reduced to the fields the dedup
invariant concerns — its unique `id` and its immutable `content_hash` (the
payload, preview and blob bookkeeping do not affect list membership). -/
structure ClipItem where
  id : Nat
  hash : Nat
deriving DecidableEq, Repr

/-- Modelled from the spec: the engine state — the ordered History and Pinned
lists, the id counter for fresh items, the History bound, and the control
settings consumed by the algorithm. -/
structure EngineState where
  history : List ClipItem
  pinned : List ClipItem
  nextId : Nat
  maxHistory : Nat
  paused : Bool
  unpinOnPaste : Bool
  updateRecencyOnCopy : Bool
deriving Repr

/-- `it.content_hash === h`. -/
def hashMatches (h : Nat) (it : ClipItem) : Bool :=
  it.hash == h

/-- `it.id === i`. -/
def idMatches (i : Nat) (it : ClipItem) : Bool :=
  it.id == i

/-- Modelled from the spec: move the first item satisfying `p` to the front
of the list, leaving the rest in order. -/
def moveToFront (p : ClipItem → Bool) (l : List ClipItem) : List ClipItem :=
  match l.find? p with
  | none => l
  | some it => it :: l.eraseP p

/-- Modelled from the spec: `prune()` — evict oldest History entries until
the bound holds (Pinned is never pruned). -/
def pruneHistory (s : EngineState) : EngineState :=
  { s with history := s.history.take s.maxHistory }

/-- Modelled from the spec: the ingestion path for content with hash `h` —
ignore when paused; a History hit is moved to the front; a Pinned hit moves
to History only under "unpin-on-paste"; otherwise a fresh ClipItem is
inserted at the front of History and History is pruned. -/
def ingest (s : EngineState) (h : Nat) : EngineState :=
  if s.paused then s
  else if s.history.any (hashMatches h) then
    { s with history := moveToFront (hashMatches h) s.history }
  else
    match s.pinned.find? (hashMatches h) with
    | some it =>
      if s.unpinOnPaste then
        pruneHistory { s with
          pinned := s.pinned.eraseP (hashMatches h),
          history := it :: s.history }
      else s
    | none =>
      pruneHistory { s with
        history := ⟨s.nextId, h⟩ :: s.history,
        nextId := s.nextId + 1 }

/-- Modelled from the spec: `pin(id)` — move the item from History to the
front of Pinned (no bound on Pinned). -/
def pinItem (s : EngineState) (i : Nat) : EngineState :=
  match s.history.find? (idMatches i) with
  | none => s
  | some it =>
    { s with history := s.history.eraseP (idMatches i), pinned := it :: s.pinned }

/-- Modelled from the spec: `unpin(id)` — move the item from Pinned to the
front of History and prune. -/
def unpinItem (s : EngineState) (i : Nat) : EngineState :=
  match s.pinned.find? (idMatches i) with
  | none => s
  | some it =>
    pruneHistory { s with
      pinned := s.pinned.eraseP (idMatches i),
      history := it :: s.history }

/-- Modelled from the spec: `delete(id)` — remove the item from whichever
list contains it. -/
def deleteItem (s : EngineState) (i : Nat) : EngineState :=
  if s.history.any (idMatches i) then
    { s with history := s.history.eraseP (idMatches i) }
  else
    { s with pinned := s.pinned.eraseP (idMatches i) }

/-- Modelled from the spec: `promoteToTop(id)` — a pinned item is unpinned
only under "unpin-on-paste"; a History item moves to the front only under
"update-recency-on-copy". -/
def promoteToTop (s : EngineState) (i : Nat) : EngineState :=
  if s.pinned.any (idMatches i) then
    if s.unpinOnPaste then unpinItem s i else s
  else if s.updateRecencyOnCopy then
    { s with history := moveToFront (idMatches i) s.history }
  else s

/-- Modelled from the spec: the operations the engine's API exposes, plus the
live setting changes it observes. -/
inductive EngineOp where
  | ingest (contentHash : Nat)
  | pin (id : Nat)
  | unpin (id : Nat)
  | delete (id : Nat)
  | promote (id : Nat)
  | setPaused (b : Bool)
  | setUnpinOnPaste (b : Bool)
  | setUpdateRecencyOnCopy (b : Bool)
  | setMaxHistory (n : Nat)
deriving DecidableEq, Repr

/-- Modelled from the spec: dispatch one operation (a max-history change
re-prunes immediately). -/
def applyOp (s : EngineState) : EngineOp → EngineState
  | .ingest h => ingest s h
  | .pin i => pinItem s i
  | .unpin i => unpinItem s i
  | .delete i => deleteItem s i
  | .promote i => promoteToTop s i
  | .setPaused b => { s with paused := b }
  | .setUnpinOnPaste b => { s with unpinOnPaste := b }
  | .setUpdateRecencyOnCopy b => { s with updateRecencyOnCopy := b }
  | .setMaxHistory n => pruneHistory { s with maxHistory := n }

/-- Modelled from the spec: a freshly started engine — empty History and
Pinned. -/
def initEngine (maxHistory : Nat) (unpinOnPaste updateRecencyOnCopy : Bool) :
    EngineState :=
  { history := [], pinned := [], nextId := 0, maxHistory := maxHistory,
    paused := false, unpinOnPaste := unpinOnPaste,
    updateRecencyOnCopy := updateRecencyOnCopy }

/-- Run a sequence of operations from a starting state. -/
def runOps (s : EngineState) (ops : List EngineOp) : EngineState :=
  ops.foldl applyOp s

/-- The hashes present across History and Pinned, in order. -/
def stateHashes (s : EngineState) : List Nat :=
  (s.history ++ s.pinned).map (fun it => it.hash)

/-- The dedup invariant: no two ClipItems in History ∪ Pinned share a
`content_hash`. -/
def DedupInv (s : EngineState) : Prop :=
  (stateHashes s).Nodup

/-! ## Helper lemmas about `pruneRecents` -/

theorem pruneRecents_of_le (s : RecentsState)
    (h : s.recents.length ≤ effectiveMax s) : pruneRecents s = s := by
  unfold pruneRecents
  have hlt : ¬ (s.recents.length > effectiveMax s) := Nat.not_lt.mpr h
  by_cases hs : s.settingsAlive <;> simp [hs, hlt]

theorem pruneRecents_recents (s : RecentsState) (hs : s.settingsAlive = true) :
    (pruneRecents s).recents = s.recents.take (effectiveMax s) := by
  unfold pruneRecents
  by_cases hl : s.recents.length > effectiveMax s
  · simp [hs, hl]
  · simp [hs, hl, List.take_of_length_le (Nat.not_lt.mp hl)]

theorem pruneRecents_maxItems (s : RecentsState) :
    (pruneRecents s).maxItems = s.maxItems := by
  unfold pruneRecents
  by_cases hs : s.settingsAlive <;>
    by_cases hl : s.recents.length > effectiveMax s <;> simp [hs, hl]

theorem effectiveMax_pruneRecents (s : RecentsState) :
    effectiveMax (pruneRecents s) = effectiveMax s := by
  unfold effectiveMax
  rw [pruneRecents_maxItems]

theorem pruneRecents_length_le (s : RecentsState) (hs : s.settingsAlive = true) :
    (pruneRecents s).recents.length ≤ effectiveMax (pruneRecents s) := by
  rw [effectiveMax_pruneRecents, pruneRecents_recents s hs, List.length_take]
  exact min_le_left _ _

/-! ## Claims about `RecentItemsManager` -/

/-- C1: on a loaded state whose list contains exactly one entry with value
`v` (the decomposition `l₁ ++ old :: l₂` with no other match), `addItem` with
a valid item of that value removes the old occurrence and reinserts the new
item at the front: the length is unchanged, the head carries `v`, and the
relative order of all other entries is preserved. -/
theorem addItem_existing_value_moves_to_front
    (s : RecentsState) (it old : JSItem) (v : String) (l₁ l₂ : List JSItem)
    (hAlive : s.settingsAlive = true)
    (hv : it.value = JSValue.str v) (hvne : ¬ jsTrim v = "")
    (hsplit : s.recents = l₁ ++ old :: l₂)
    (hold : valueMatches v old = true)
    (h₁ : ∀ b ∈ l₁, valueMatches v b = false)
    (h₂ : ∀ b ∈ l₂, valueMatches v b = false)
    (hbound : s.recents.length ≤ effectiveMax s) :
    (addItem s (some it)).1.recents = it :: (l₁ ++ l₂) ∧
    (addItem s (some it)).1.recents.length = s.recents.length ∧
    ((addItem s (some it)).1.recents.map JSItem.value).head? = some (JSValue.str v) := by
  have hvalid : isValidItem (some it) = true := by
    simp only [isValidItem]
    rw [hv]
    simp [hvne]
  have herase : s.recents.eraseP (valueMatches v) = l₁ ++ l₂ := by
    rw [hsplit, List.eraseP_append_right _ (fun b hb => by simp [h₁ b hb]),
        List.eraseP_cons_of_pos hold]
  have hstep : (addItem s (some it)).1
      = pruneRecents { s with recents := it :: (l₁ ++ l₂) } := by
    unfold addItem
    simp [hAlive, hvalid, hv, herase]
  have hlen : (it :: (l₁ ++ l₂)).length = s.recents.length := by
    rw [hsplit]
    simp
    omega
  have hb' : ({ s with recents := it :: (l₁ ++ l₂) } : RecentsState).recents.length
      ≤ effectiveMax { s with recents := it :: (l₁ ++ l₂) } := by
    show (it :: (l₁ ++ l₂)).length ≤ effectiveMax s
    rw [hlen]
    exact hbound
  rw [hstep, pruneRecents_of_le _ hb']
  exact ⟨rfl, hlen, by simp [hv]⟩

theorem addItem_existing_value_moves_to_front_witness :
    (addItem ⟨[⟨.str "a", 0⟩, ⟨.str "b", 1⟩, ⟨.str "c", 2⟩], 5, true, true⟩
        (some ⟨.str "b", 9⟩)).1.recents
      = [⟨.str "b", 9⟩, ⟨.str "a", 0⟩, ⟨.str "c", 2⟩] ∧
    (addItem ⟨[⟨.str "a", 0⟩, ⟨.str "b", 1⟩, ⟨.str "c", 2⟩], 5, true, true⟩
        (some ⟨.str "b", 9⟩)).1.recents.length = 3 := by
  have h := addItem_existing_value_moves_to_front
    ⟨[⟨.str "a", 0⟩, ⟨.str "b", 1⟩, ⟨.str "c", 2⟩], 5, true, true⟩
    ⟨.str "b", 9⟩ ⟨.str "b", 1⟩ "b" [⟨.str "a", 0⟩] [⟨.str "c", 2⟩]
    rfl rfl (by decide) rfl (by decide)
    (by intro b hb; fin_cases hb <;> decide)
    (by intro b hb; fin_cases hb <;> decide)
    (by decide)
  exact ⟨h.1, h.2.1⟩

/-- C2: after `addItem`, and after a max-items setting change once loading
has completed, the list length is at most the configured bound; the bound
falls back to 45 when the configured value is negative (invalid). -/
theorem recents_bound_after_ops (s : RecentsState)
    (hL : s.isLoaded = true)
    (hpre : s.recents.length ≤ effectiveMax s) :
    (∀ item, (addItem s item).1.recents.length ≤ effectiveMax (addItem s item).1) ∧
    (∀ newMax : Int,
      (onMaxItemsChanged s newMax).1.recents.length
        ≤ effectiveMax (onMaxItemsChanged s newMax).1) ∧
    (∀ n : Int, n < 0 →
      effectiveMax { s with maxItems := n } = DEFAULT_MAX_RECENTS_FALLBACK) := by
  refine ⟨?_, ?_, ?_⟩
  · intro item
    by_cases hAlive : s.settingsAlive
    · by_cases hval : isValidItem item
      · rcases item with _ | it
        · simp [isValidItem] at hval
        · cases hv : it.value with
          | str v =>
            have hstep : (addItem s (some it)).1
                = pruneRecents { s with recents := it :: s.recents.eraseP (valueMatches v) } := by
              unfold addItem
              simp [hAlive, hval, hv]
            rw [hstep]
            exact pruneRecents_length_le _ hAlive
          | other =>
            simp [isValidItem, hv] at hval
      · have : (addItem s item).1 = s := by
          unfold addItem
          simp [hAlive, hval]
        rw [this]
        exact hpre
    · have : (addItem s item).1 = s := by
        unfold addItem
        simp [hAlive]
      rw [this]
      exact hpre
  · intro newMax
    by_cases hAlive : s.settingsAlive
    · have hstep : onMaxItemsChanged s newMax
          = (pruneRecents { s with maxItems := newMax }, true) := by
        unfold onMaxItemsChanged
        simp [hAlive, hL]
      rw [hstep]
      exact pruneRecents_length_le _ hAlive
    · have : (onMaxItemsChanged s newMax).1 = s := by
        unfold onMaxItemsChanged
        simp [hAlive]
      rw [this]
      exact hpre
  · intro n hn
    show (if (0:Int) ≤ n then n.toNat else DEFAULT_MAX_RECENTS_FALLBACK)
        = DEFAULT_MAX_RECENTS_FALLBACK
    rw [if_neg (by omega)]

theorem recents_bound_after_ops_witness :
    (addItem ⟨[⟨.str "a", 0⟩, ⟨.str "b", 1⟩], 2, true, true⟩
        (some ⟨.str "c", 2⟩)).1.recents.length
      ≤ effectiveMax (addItem ⟨[⟨.str "a", 0⟩, ⟨.str "b", 1⟩], 2, true, true⟩
        (some ⟨.str "c", 2⟩)).1 := by
  have h := recents_bound_after_ops ⟨[⟨.str "a", 0⟩, ⟨.str "b", 1⟩], 2, true, true⟩
    rfl (by decide)
  exact h.1 (some ⟨.str "c", 2⟩)

/-- C3: a live manager rejects an invalid item (null, non-string value, or
blank-after-trim value) with no mutation of the list, no save, no
notification, and only a logged warning. -/
theorem addItem_invalid_no_mutation (s : RecentsState) (item : Option JSItem)
    (hAlive : s.settingsAlive = true)
    (hInvalid : isValidItem item = false) :
    addItem s item = (s, { warned := true, saved := false, emitted := false }) := by
  unfold addItem
  simp [hAlive, hInvalid, noEffects]

theorem addItem_invalid_no_mutation_witness :
    addItem ⟨[⟨.str "a", 0⟩], 5, true, true⟩ (some ⟨.str "  ", 7⟩)
      = (⟨[⟨.str "a", 0⟩], 5, true, true⟩,
         { warned := true, saved := false, emitted := false }) :=
  addItem_invalid_no_mutation _ _ rfl (by decide)

/-- C7 counterexample: on a manager whose initial asynchronous load has not
yet completed, a max-items setting change performs no save (and no prune):
the handler only records the new value.  So re-truncation-and-persistence
does not follow from every setting change. -/
theorem onMaxItemsChanged_before_load_skips_save :
    (onMaxItemsChanged ⟨[], 5, false, true⟩ 0).2 = false ∧
    (onMaxItemsChanged ⟨[⟨.str "a", 0⟩, ⟨.str "b", 1⟩], 5, false, true⟩ 1).1.recents
      = [⟨.str "a", 0⟩, ⟨.str "b", 1⟩] := by
  constructor <;> rfl

/-- C7 (amended): once loading has completed, a max-items setting change on a
live manager immediately re-truncates the list to the new bound and initiates
a save. -/
theorem onMaxItemsChanged_retruncates_and_saves
    (s : RecentsState) (newMax : Int)
    (hAlive : s.settingsAlive = true) (hL : s.isLoaded = true) :
    (onMaxItemsChanged s newMax).1.maxItems = newMax ∧
    (onMaxItemsChanged s newMax).1.recents
      = s.recents.take (effectiveMax (onMaxItemsChanged s newMax).1) ∧
    (onMaxItemsChanged s newMax).1.recents.length
      ≤ effectiveMax (onMaxItemsChanged s newMax).1 ∧
    (onMaxItemsChanged s newMax).2 = true := by
  have hstep : onMaxItemsChanged s newMax
      = (pruneRecents { s with maxItems := newMax }, true) := by
    unfold onMaxItemsChanged
    simp [hAlive, hL]
  rw [hstep]
  refine ⟨pruneRecents_maxItems _, ?_, pruneRecents_length_le _ hAlive, rfl⟩
  show (pruneRecents { s with maxItems := newMax }).recents
      = s.recents.take (effectiveMax (pruneRecents { s with maxItems := newMax }))
  rw [effectiveMax_pruneRecents, pruneRecents_recents { s with maxItems := newMax } hAlive]

theorem onMaxItemsChanged_retruncates_and_saves_witness :
    (onMaxItemsChanged ⟨[⟨.str "a", 0⟩, ⟨.str "b", 1⟩, ⟨.str "c", 2⟩], 5, true, true⟩ 1).1.recents.length
        ≤ effectiveMax (onMaxItemsChanged
            ⟨[⟨.str "a", 0⟩, ⟨.str "b", 1⟩, ⟨.str "c", 2⟩], 5, true, true⟩ 1).1 ∧
    (onMaxItemsChanged ⟨[⟨.str "a", 0⟩, ⟨.str "b", 1⟩, ⟨.str "c", 2⟩], 5, true, true⟩ 1).2
        = true := by
  have h := onMaxItemsChanged_retruncates_and_saves
    ⟨[⟨.str "a", 0⟩, ⟨.str "b", 1⟩, ⟨.str "c", 2⟩], 5, true, true⟩ 1 rfl rfl
  exact ⟨h.2.2.1, h.2.2.2⟩

/-- C4: loading never propagates an error — the embedded `try`/`catch` always
yields `.ok`; a missing file gives the empty list without a warning; a
parse failure or a non-array JSON document gives the empty list with a
warning; and a loaded array is installed (pruned), so the in-memory list is
always a well-formed list. -/
theorem loadRecents_never_errors (s : RecentsState) (e : ReadEvent)
    (hAlive : s.settingsAlive = true) :
    (∃ r, loadRecents s e = .ok r) ∧
    loadRecents s .throwNotFound = .ok ({ s with recents := [] }, false) ∧
    loadRecents s (.ret (some .malformed)) = .ok ({ s with recents := [] }, true) ∧
    loadRecents s (.ret (some .jsonOther)) = .ok ({ s with recents := [] }, true) ∧
    (∀ items, loadRecents s (.ret (some (.jsonArr items)))
      = .ok (pruneRecents { s with recents := items }, false)) := by
  have hnf : loadRecents s .throwNotFound = .ok ({ s with recents := [] }, false) := by
    simp [loadRecents, hAlive, loadBody, readFileResult]
  have hoth : loadRecents s .throwOther = .ok ({ s with recents := [] }, true) := by
    simp [loadRecents, hAlive, loadBody, readFileResult]
  have hnone : loadRecents s (.ret none) = .ok ({ s with recents := [] }, false) := by
    simp [loadRecents, hAlive, loadBody, readFileResult]
  have hblank : loadRecents s (.ret (some .blank))
      = .ok (pruneRecents { s with recents := [] }, false) := by
    simp [loadRecents, hAlive, loadBody, readFileResult]
  have hmal : loadRecents s (.ret (some .malformed))
      = .ok ({ s with recents := [] }, true) := by
    simp [loadRecents, hAlive, loadBody, readFileResult]
  have harr : ∀ items, loadRecents s (.ret (some (.jsonArr items)))
      = .ok (pruneRecents { s with recents := items }, false) := by
    intro items
    simp [loadRecents, hAlive, loadBody, readFileResult]
  have hnonarr : loadRecents s (.ret (some .jsonOther))
      = .ok ({ s with recents := [] }, true) := by
    simp [loadRecents, hAlive, loadBody, readFileResult]
  refine ⟨?_, hnf, hmal, hnonarr, harr⟩
  cases e with
  | throwNotFound => exact ⟨_, hnf⟩
  | throwOther => exact ⟨_, hoth⟩
  | ret b =>
    cases b with
    | none => exact ⟨_, hnone⟩
    | some c =>
      cases c with
      | blank => exact ⟨_, hblank⟩
      | malformed => exact ⟨_, hmal⟩
      | jsonArr items => exact ⟨_, harr items⟩
      | jsonOther => exact ⟨_, hnonarr⟩

theorem loadRecents_never_errors_witness :
    loadRecents ⟨[⟨.str "a", 0⟩], 5, false, true⟩ .throwNotFound
      = .ok (⟨[], 5, false, true⟩, false) := by
  have h := loadRecents_never_errors ⟨[⟨.str "a", 0⟩], 5, false, true⟩ .throwNotFound rfl
  exact h.2.1

/-! ## Heap lemmas for the `getRecents` aliasing model -/

theorem hget_halloc_new (h : ArrayHeap) (v : List JSItem) :
    hget (halloc h v).1 (halloc h v).2 = v := by
  simp [hget, halloc, List.getElem?_append_right (Nat.le_refl _)]

theorem hget_halloc_old (h : ArrayHeap) (v : List JSItem) (r : Nat)
    (hr : r < h.cells.length) : hget (halloc h v).1 r = hget h r := by
  simp [hget, halloc, List.getElem?_append, hr]

theorem hget_hset_ne (h : ArrayHeap) (r' r : Nat) (v : List JSItem)
    (hne : r' ≠ r) : hget (hset h r' v) r = hget h r := by
  simp [hget, hset, List.getElem?_set_ne hne]

/-- C6: `getRecents()` hands out a fresh array: the returned reference is
distinct from the backing one, holds the same contents, and any caller
mutation through it leaves both the backing list and the result of a
subsequent `getRecents()` call unchanged. -/
theorem getRecents_returns_copy (h : ArrayHeap) (mgr : Nat)
    (hm : mgr < h.cells.length) :
    (getRecentsRef h mgr).2 ≠ mgr ∧
    hget (getRecentsRef h mgr).1 (getRecentsRef h mgr).2 = hget h mgr ∧
    (∀ v, hget (hset (getRecentsRef h mgr).1 (getRecentsRef h mgr).2 v) mgr
      = hget h mgr) ∧
    (∀ v,
      hget (getRecentsRef (hset (getRecentsRef h mgr).1 (getRecentsRef h mgr).2 v) mgr).1
           (getRecentsRef (hset (getRecentsRef h mgr).1 (getRecentsRef h mgr).2 v) mgr).2
        = hget h mgr) := by
  have hne : (getRecentsRef h mgr).2 ≠ mgr := by
    show h.cells.length ≠ mgr
    omega
  have hold : ∀ v, hget (hset (getRecentsRef h mgr).1 (getRecentsRef h mgr).2 v) mgr
      = hget h mgr := by
    intro v
    rw [hget_hset_ne _ _ _ _ hne]
    exact hget_halloc_old h _ mgr hm
  refine ⟨hne, hget_halloc_new h _, hold, ?_⟩
  intro v
  show hget (halloc _ (hget _ mgr)).1 (halloc _ (hget _ mgr)).2 = hget h mgr
  rw [hget_halloc_new, hold v]

theorem getRecents_returns_copy_witness :
    hget (hset (getRecentsRef ⟨[[⟨.str "a", 0⟩]]⟩ 0).1
               (getRecentsRef ⟨[[⟨.str "a", 0⟩]]⟩ 0).2 []) 0
      = [⟨.str "a", 0⟩] := by
  have h := getRecents_returns_copy ⟨[[⟨.str "a", 0⟩]]⟩ 0 (by decide)
  exact h.2.2.1 []

/-! ## Debouncer lemmas -/

theorem debRun_destroyed (evs : List DebEvent) :
    ∀ d : DebouncerState, d.isDestroyed = true →
      (debRun d evs).2 = 0 ∧ (debRun d evs).1.isDestroyed = true := by
  induction evs with
  | nil =>
    intro d hd
    exact ⟨rfl, hd⟩
  | cons e es ih =>
    intro d hd
    have hstep : (debStep d e).1.isDestroyed = true ∧ (debStep d e).2 = false := by
      cases e <;> simp [debStep, hd]
    obtain ⟨h1, h2⟩ := hstep
    have hrest := ih (debStep d e).1 h1
    simp [debRun, h2, hrest.1, hrest.2]

/-- C8: after `destroy()` the wrapped function is never executed again — the
pending timeout is cleared, the destroy step itself invokes nothing, a later
`trigger()` schedules nothing, a timeout callback firing after destruction
invokes nothing, and every subsequent event sequence performs zero
invocations. -/
theorem debouncer_destroy_stops (d : DebouncerState) (evs : List DebEvent) :
    (debStep d .destroy).2 = false ∧
    (debStep d .destroy).1.pending = false ∧
    (debStep (debStep d .destroy).1 .trigger).1.pending = false ∧
    (debStep (debStep d .destroy).1 .fire).2 = false ∧
    (debRun (debStep d .destroy).1 evs).2 = 0 := by
  refine ⟨rfl, rfl, rfl, rfl, ?_⟩
  exact (debRun_destroyed evs _ rfl).1

/-- C5 (code bug): `GifCacheManager.triggerDebouncedCleanup()` invokes
`this._debouncedCleanup.call()`, but the `Debouncer` class defines no `call`
method (its trigger method is named `trigger`), so property lookup yields
`undefined` and the call throws a `TypeError` instead of scheduling the
debounced cleanup — for every debouncer state, including the freshly
constructed one. -/
theorem triggerDebouncedCleanup_throws :
    (∀ d : DebouncerState, triggerDebouncedCleanup d
      = .error (.typeError "call is not a function")) ∧
    triggerDebouncedCleanup gifManagerDebouncer
      = .error (.typeError "call is not a function") := by
  constructor
  · intro d
    rfl
  · rfl

/-! ## Lemmas about the cache deletion loop -/

theorem totalSizeOf_cons (f : CacheFile) (l : List CacheFile) :
    totalSizeOf (f :: l) = (f.size : Int) + totalSizeOf l := by
  simp [totalSizeOf]

theorem deleteLoop_att_indep (delOk delOk' : String → Bool) (lim : Int) :
    ∀ (total : Int) (l : List CacheFile),
      (deleteLoop delOk lim total l).1 = (deleteLoop delOk' lim total l).1 := by
  intro total l
  induction l generalizing total with
  | nil => rfl
  | cons f rest ih =>
    by_cases hle : total ≤ lim
    · simp [deleteLoop, hle]
    · simp [deleteLoop, hle, ih]

theorem deleteLoop_succ_filter (delOk : String → Bool) (lim : Int) :
    ∀ (total : Int) (l : List CacheFile),
      (deleteLoop delOk lim total l).2
        = (deleteLoop delOk lim total l).1.filter (fun f => delOk f.path) := by
  intro total l
  induction l generalizing total with
  | nil => rfl
  | cons f rest ih =>
    by_cases hle : total ≤ lim
    · simp [deleteLoop, hle]
    · by_cases hdel : delOk f.path <;> simp [deleteLoop, hle, ih, hdel]

theorem deleteLoop_att_take (delOk : String → Bool) (lim : Int) :
    ∀ (total : Int) (l : List CacheFile),
      ∃ k, (deleteLoop delOk lim total l).1 = l.take k := by
  intro total l
  induction l generalizing total with
  | nil => exact ⟨0, rfl⟩
  | cons f rest ih =>
    by_cases hle : total ≤ lim
    · exact ⟨0, by simp [deleteLoop, hle]⟩
    · obtain ⟨k, hk⟩ := ih (total - (f.size : Int))
      exact ⟨k + 1, by simp [deleteLoop, hle, hk]⟩

theorem deleteLoop_reaches_limit (delOk : String → Bool) (lim : Int) :
    ∀ (total : Int) (l : List CacheFile),
      total - totalSizeOf (deleteLoop delOk lim total l).1 ≤ lim ∨
      (deleteLoop delOk lim total l).1 = l := by
  intro total l
  induction l generalizing total with
  | nil => exact Or.inr rfl
  | cons f rest ih =>
    by_cases hle : total ≤ lim
    · left
      simpa [deleteLoop, hle, totalSizeOf] using hle
    · rcases ih (total - (f.size : Int)) with h | h
      · left
        have hrw : (deleteLoop delOk lim total (f :: rest)).1
            = f :: (deleteLoop delOk lim (total - (f.size : Int)) rest).1 := by
          simp [deleteLoop, hle]
        rw [hrw, totalSizeOf_cons]
        omega
      · right
        simp [deleteLoop, hle, h]

theorem deleteLoop_minimal (delOk : String → Bool) (lim : Int) :
    ∀ (total : Int) (l : List CacheFile)
      (k : Nat), k < (deleteLoop delOk lim total l).1.length →
      lim < total - totalSizeOf ((deleteLoop delOk lim total l).1.take k) := by
  intro total l
  induction l generalizing total with
  | nil =>
    intro k hk
    simp [deleteLoop] at hk
  | cons f rest ih =>
    intro k hk
    by_cases hle : total ≤ lim
    · simp [deleteLoop, hle] at hk
    · have hrw : (deleteLoop delOk lim total (f :: rest)).1
          = f :: (deleteLoop delOk lim (total - (f.size : Int)) rest).1 := by
        simp [deleteLoop, hle]
      rw [hrw] at hk ⊢
      cases k with
      | zero =>
        simp [totalSizeOf]
        omega
      | succ j =>
        have hj : j < (deleteLoop delOk lim (total - (f.size : Int)) rest).1.length := by
          simpa using hk
        have := ih (total - (f.size : Int)) j hj
        simp only [List.take_succ_cons, totalSizeOf_cons]
        omega

theorem sortByAccess_sorted (files : List CacheFile) :
    List.Pairwise (fun a b => a.accessTime ≤ b.accessTime) (sortByAccess files) := by
  have h := @List.sorted_mergeSort CacheFile cacheLE
    (fun a b c hab hbc => by
      simp only [cacheLE, decide_eq_true_eq] at hab hbc ⊢
      omega)
    (fun a b => by
      simp only [cacheLE, Bool.or_eq_true, decide_eq_true_eq]
      omega)
    files
  exact h.imp (fun hab => by simpa [cacheLE] using hab)

/-- C9: `manageCacheSize` deletes nothing when the limit is non-positive, the
directory is missing, or the total size is within `limitInMB * 1024 * 1024`
bytes; otherwise the files whose deletion it attempts form an initial
segment of the access-time-ascending order, it stops exactly when the
tracked remaining size reaches the limit (or the files run out), and a
failed deletion skips only that file — the set of attempted deletions does
not depend on deletion outcomes. -/
theorem manageCacheSize_spec (dirExists enumOk : Bool) (files : List CacheFile)
    (limitInMB : Int) (delOk delOk' : String → Bool) :
    (limitInMB ≤ 0 →
      (manageCacheSize dirExists enumOk files limitInMB delOk).1 = []) ∧
    (dirExists = false →
      (manageCacheSize dirExists enumOk files limitInMB delOk).1 = []) ∧
    (totalSizeOf files ≤ limitInMB * 1024 * 1024 →
      (manageCacheSize dirExists enumOk files limitInMB delOk).1 = []) ∧
    (∃ k, (manageCacheSize dirExists enumOk files limitInMB delOk).1
      = (sortByAccess files).take k) ∧
    List.Pairwise (fun a b => a.accessTime ≤ b.accessTime)
      (manageCacheSize dirExists enumOk files limitInMB delOk).1 ∧
    (dirExists = true → enumOk = true → 0 < limitInMB →
      limitInMB * 1024 * 1024 < totalSizeOf files →
      (totalSizeOf files
          - totalSizeOf (manageCacheSize dirExists enumOk files limitInMB delOk).1
          ≤ limitInMB * 1024 * 1024 ∨
        (manageCacheSize dirExists enumOk files limitInMB delOk).1
          = sortByAccess files)) ∧
    (∀ k, k < (manageCacheSize dirExists enumOk files limitInMB delOk).1.length →
      limitInMB * 1024 * 1024 < totalSizeOf files
        - totalSizeOf ((manageCacheSize dirExists enumOk files limitInMB delOk).1.take k)) ∧
    (manageCacheSize dirExists enumOk files limitInMB delOk).1
      = (manageCacheSize dirExists enumOk files limitInMB delOk').1 ∧
    (manageCacheSize dirExists enumOk files limitInMB delOk).2
      = (manageCacheSize dirExists enumOk files limitInMB delOk).1.filter
          (fun f => delOk f.path) := by
  by_cases h0 : limitInMB ≤ 0
  · simp [manageCacheSize, h0]
  · by_cases hdir : dirExists
    · by_cases henum : enumOk
      · by_cases hsz : totalSizeOf files ≤ limitInMB * 1024 * 1024
        · simp [manageCacheSize, h0, hdir, henum, hsz]
        · have hrw : ∀ g, manageCacheSize dirExists enumOk files limitInMB g
              = deleteLoop g (limitInMB * 1024 * 1024) (totalSizeOf files)
                  (sortByAccess files) := by
            intro g
            simp [manageCacheSize, h0, hdir, henum, hsz]
          refine ⟨fun h => absurd h h0, fun h => by rw [h] at hdir; exact absurd hdir (by simp),
            fun h => absurd h hsz, ?_, ?_, ?_, ?_, ?_, ?_⟩
          · rw [hrw]
            exact deleteLoop_att_take _ _ _ _
          · rw [hrw]
            obtain ⟨k, hk⟩ := deleteLoop_att_take delOk (limitInMB * 1024 * 1024)
              (totalSizeOf files) (sortByAccess files)
            rw [hk]
            exact (sortByAccess_sorted files).sublist (List.take_sublist _ _)
          · intro _ _ _ _
            rw [hrw]
            exact deleteLoop_reaches_limit _ _ _ _
          · intro k hk
            rw [hrw] at hk ⊢
            exact deleteLoop_minimal _ _ _ _ k hk
          · rw [hrw, hrw]
            exact deleteLoop_att_indep _ _ _ _ _
          · rw [hrw]
            exact deleteLoop_succ_filter _ _ _ _
      · simp [manageCacheSize, h0, hdir, henum]
    · simp [manageCacheSize, h0, hdir]

theorem manageCacheSize_spec_witness :
    (manageCacheSize true true
        [⟨"a", 1, 1000⟩, ⟨"b", 2, 2000⟩] 1 (fun _ => true)).1 = [] := by
  have h := manageCacheSize_spec true true [⟨"a", 1, 1000⟩, ⟨"b", 2, 2000⟩] 1
    (fun _ => true) (fun _ => false)
  exact h.2.2.1 (by decide)

/-! ## Engine invariant lemmas -/

theorem cons_eraseP_perm {α : Type} {p : α → Bool} :
    ∀ (l : List α) {it : α}, l.find? p = some it → (it :: l.eraseP p).Perm l := by
  intro l
  induction l with
  | nil =>
    intro it hfind
    simp at hfind
  | cons a rest ih =>
    intro it hfind
    by_cases hp : p a
    · rw [List.find?_cons_of_pos _ hp] at hfind
      cases hfind
      rw [List.eraseP_cons_of_pos hp]
    · rw [List.find?_cons_of_neg _ hp] at hfind
      rw [List.eraseP_cons_of_neg hp]
      exact (List.Perm.swap a it _).trans ((ih hfind).cons a)

/-- Transport of hash-nodupness along a permutation of the item list. -/
theorem nodup_hashes_of_perm {l l' : List ClipItem}
    (hp : l'.Perm l) (h : (l.map (fun x => x.hash)).Nodup) :
    (l'.map (fun x => x.hash)).Nodup :=
  ((hp.map _).nodup_iff).mpr h

/-- Transport of hash-nodupness along a sublist of the item list. -/
theorem nodup_hashes_of_sublist {l l' : List ClipItem}
    (hp : l'.Sublist l) (h : (l.map (fun x => x.hash)).Nodup) :
    (l'.map (fun x => x.hash)).Nodup :=
  (hp.map _).nodup h

theorem moveToFront_preserves_dedup (p : ClipItem → Bool) (X Y : List ClipItem)
    (h : ((X ++ Y).map (fun x => x.hash)).Nodup) :
    ((moveToFront p X ++ Y).map (fun x => x.hash)).Nodup := by
  unfold moveToFront
  cases hfind : X.find? p with
  | none => exact h
  | some it =>
    exact nodup_hashes_of_perm ((cons_eraseP_perm X hfind).append_right Y) h

theorem transfer_to_front_preserves_dedup (p : ClipItem → Bool)
    (X Y : List ClipItem) (it : ClipItem) (hfind : Y.find? p = some it)
    (h : ((X ++ Y).map (fun x => x.hash)).Nodup) :
    (((it :: X) ++ Y.eraseP p).map (fun x => x.hash)).Nodup := by
  have h1 : ((it :: X) ++ Y.eraseP p).Perm (X ++ (it :: Y.eraseP p)) :=
    (@List.perm_middle _ it X (Y.eraseP p)).symm
  have h2 : (X ++ (it :: Y.eraseP p)).Perm (X ++ Y) :=
    List.Perm.append_left X (cons_eraseP_perm Y hfind)
  exact nodup_hashes_of_perm (h1.trans h2) h

theorem ingest_preserves_dedup (s : EngineState) (h : Nat)
    (hs : DedupInv s) : DedupInv (ingest s h) := by
  unfold DedupInv stateHashes at hs ⊢
  unfold ingest
  by_cases hp : s.paused
  · simpa [hp] using hs
  · simp only [hp, if_false]
    by_cases hh : s.history.any (hashMatches h)
    · simp only [hh, if_true]
      exact moveToFront_preserves_dedup _ _ _ hs
    · simp only [hh, if_false]
      cases hpf : s.pinned.find? (hashMatches h) with
      | some it =>
        by_cases hu : s.unpinOnPaste
        · simp only [hu, if_true]
          have hbase := transfer_to_front_preserves_dedup (hashMatches h)
            s.history s.pinned it hpf hs
          unfold pruneHistory
          exact nodup_hashes_of_sublist
            ((List.take_sublist _ _).append_right _) hbase
        · simpa [hu] using hs
      | none =>
        have hnotin : (h : Nat) ∉ (s.history ++ s.pinned).map (fun x => x.hash) := by
          intro hmem
          rw [List.mem_map] at hmem
          obtain ⟨x, hx, hxh⟩ := hmem
          rw [List.mem_append] at hx
          cases hx with
          | inl hxH =>
            have := (List.any_eq_false.mp (by simpa using hh)) x hxH
            simp [hashMatches, hxh] at this
          | inr hxP =>
            have := (List.find?_eq_none.mp hpf) x hxP
            simp [hashMatches, hxh] at this
        have hbase : (((⟨s.nextId, h⟩ : ClipItem) :: s.history ++ s.pinned).map
            (fun x => x.hash)).Nodup := by
          simp only [List.cons_append, List.map_cons, List.nodup_cons]
          exact ⟨hnotin, hs⟩
        unfold pruneHistory
        exact nodup_hashes_of_sublist
          ((List.take_sublist _ _).append_right _) hbase

theorem pin_preserves_dedup (s : EngineState) (i : Nat)
    (hs : DedupInv s) : DedupInv (pinItem s i) := by
  unfold DedupInv stateHashes at hs ⊢
  unfold pinItem
  cases hfind : s.history.find? (idMatches i) with
  | none => exact hs
  | some it =>
    have h1 : (s.history.eraseP (idMatches i) ++ (it :: s.pinned)).Perm
        (it :: (s.history.eraseP (idMatches i) ++ s.pinned)) :=
      List.perm_middle
    have h2 : ((it :: s.history.eraseP (idMatches i)) ++ s.pinned).Perm
        (s.history ++ s.pinned) :=
      (cons_eraseP_perm s.history hfind).append_right _
    exact nodup_hashes_of_perm (h1.trans h2) hs

theorem unpin_preserves_dedup (s : EngineState) (i : Nat)
    (hs : DedupInv s) : DedupInv (unpinItem s i) := by
  unfold DedupInv stateHashes at hs ⊢
  unfold unpinItem
  cases hfind : s.pinned.find? (idMatches i) with
  | none => exact hs
  | some it =>
    have hbase := transfer_to_front_preserves_dedup (idMatches i)
      s.history s.pinned it hfind hs
    unfold pruneHistory
    exact nodup_hashes_of_sublist ((List.take_sublist _ _).append_right _) hbase

theorem delete_preserves_dedup (s : EngineState) (i : Nat)
    (hs : DedupInv s) : DedupInv (deleteItem s i) := by
  unfold DedupInv stateHashes at hs ⊢
  unfold deleteItem
  by_cases hh : s.history.any (idMatches i)
  · simp only [hh, if_true]
    exact nodup_hashes_of_sublist
      ((List.eraseP_sublist _).append_right _) hs
  · simp only [hh, if_false]
    exact nodup_hashes_of_sublist
      ((List.eraseP_sublist _).append_left _) hs

theorem promote_preserves_dedup (s : EngineState) (i : Nat)
    (hs : DedupInv s) : DedupInv (promoteToTop s i) := by
  unfold promoteToTop
  by_cases hpin : s.pinned.any (idMatches i)
  · by_cases hu : s.unpinOnPaste
    · simpa [hpin, hu] using unpin_preserves_dedup s i hs
    · simpa [hpin, hu] using hs
  · by_cases hr : s.updateRecencyOnCopy
    · simp only [hpin, hr, if_false, if_true]
      unfold DedupInv stateHashes at hs ⊢
      exact moveToFront_preserves_dedup _ _ _ hs
    · simpa [hpin, hr] using hs

theorem applyOp_preserves_dedup (s : EngineState) (op : EngineOp)
    (hs : DedupInv s) : DedupInv (applyOp s op) := by
  cases op with
  | ingest h => exact ingest_preserves_dedup s h hs
  | pin i => exact pin_preserves_dedup s i hs
  | unpin i => exact unpin_preserves_dedup s i hs
  | delete i => exact delete_preserves_dedup s i hs
  | promote i => exact promote_preserves_dedup s i hs
  | setPaused b => exact hs
  | setUnpinOnPaste b => exact hs
  | setUpdateRecencyOnCopy b => exact hs
  | setMaxHistory n =>
    unfold DedupInv stateHashes at hs ⊢
    unfold applyOp pruneHistory
    exact nodup_hashes_of_sublist ((List.take_sublist _ _).append_right _) hs

theorem runOps_preserves_dedup (ops : List EngineOp) :
    ∀ s : EngineState, DedupInv s → DedupInv (runOps s ops) := by
  induction ops with
  | nil =>
    intro s hs
    exact hs
  | cons op rest ih =>
    intro s hs
    exact ih (applyOp s op) (applyOp_preserves_dedup s op hs)

/-- C10: starting from a freshly started engine, every sequence of engine
operations (ingestion of arbitrary content hashes, pin/unpin/delete/promote,
and live setting changes) maintains the dedup invariant — no two ClipItems
in History ∪ Pinned ever share a `content_hash`. -/
theorem engine_dedup_invariant (maxHistory : Nat)
    (unpinOnPaste updateRecencyOnCopy : Bool) (ops : List EngineOp) :
    DedupInv (runOps (initEngine maxHistory unpinOnPaste updateRecencyOnCopy) ops) := by
  apply runOps_preserves_dedup
  unfold DedupInv stateHashes initEngine
  simp

end AIOClipboard
